import Mathlib

/-!
Verification development for the nano-go-vllm inference engine.

Each section embeds one subsystem of the Go sources as Lean definitions
(shallow embedding) and proves or refutes the spec claims about it.

Modelling conventions, used throughout:
* Go `int` values are embedded as `Int` (or `Nat` where the source only
  ever holds non-negative values such as lengths and indices); the 64-bit
  overflow boundary is never approached by any quantity involved.
* Go `float32` arithmetic is embedded over an arbitrary linearly ordered
  field `alpha` (instantiated at `ℚ` for executable witnesses and at `ℝ`
  when `math.Exp` must be the real exponential); rounding is not modelled,
  and no claim below depends on rounding.
* Go slices become `List`s; Go maps with unspecified iteration order are
  either iterated in an order-insensitive way (proved equivalent) or take
  the observed iteration order as an explicit argument.
-/

/-! ### Safetensors BF16 decoding (src/pkg/safetensors/reader.go)

`bfloat16ToFloat32` converts BF16 to float32 by placing the 16 payload bits
as the high 16 bits of the float32 word: `out := uint32(h) << 16`.  We work
on the bit patterns: a float32 value is identified with its `uint32` IEEE-754
encoding (the Go code itself only performs the bit reinterpretation
`mathFromBits`, which is a bijection between words and float32 values). -/

/-- Bit-level embedding of `bfloat16ToFloat32` from src/pkg/safetensors/reader.go:
the returned float32 word is `uint32(h) << 16`.  The argument is a `uint16`
value, i.e. a natural number below 2^16. -/
def bfloat16ToFloat32Bits (h : Nat) : Nat :=
  Nat.shiftLeft h 16

/-- Truncation of a float32 word to its upper 16 bits, as the spec describes
BF16 encoding ("upper 16 bits of float32").  The repository only decodes
BF16; this encoder direction is stated by the spec sentence under test. -/
def bf16OfFloat32Bits (f : Nat) : Nat :=
  f / 2 ^ 16

/-! ### Sampler (src/internal/sampling/sampler.go)

The per-row sampling pipeline of `Sampler.Sample`, embedded over an
arbitrary linearly ordered field `alpha` with an explicit function `fexp`
standing for `math.Exp` (instantiated at `Real.exp` where the claim needs
the real exponential).  Random draws (`rand.Float32()`, one per row) are
supplied as an explicit stream `rs : Nat → alpha`. -/

variable {alpha : Type} [LinearOrderedField alpha]

/-- The five filter fields of the anonymous `DefaultParams` struct in
sampler.go, also the per-row effective configuration `p`. -/
structure FilterParams (alpha : Type) where
  topP : alpha
  topK : Int
  repetitionPenalty : alpha
  presencePenalty : alpha
  frequencyPenalty : alpha

/-- Go `DefaultParams`: TopP 0.95, TopK 50, RepetitionPenalty 1.0, no
presence or frequency penalty. -/
def DefaultParams : FilterParams alpha :=
  ⟨19 / 20, 50, 1, 0, 0⟩

/-- Per-request sampling parameters (`sampling.SamplingParams`). -/
structure SamplingParams (alpha : Type) where
  temperature : alpha
  maxTokens : Int
  ignoreEOS : Bool
  topP : alpha
  topK : Int
  repetitionPenalty : alpha
  presencePenalty : alpha
  frequencyPenalty : alpha

/-- The five-field copy `p.TopP = params[i].TopP; ...` in `Sampler.Sample`. -/
def filterOf (p : SamplingParams alpha) : FilterParams alpha :=
  ⟨p.topP, p.topK, p.repetitionPenalty, p.presencePenalty, p.frequencyPenalty⟩

/-- Penalty update for one vocabulary entry with positive count `c`, from
`applyPenalties`: repetition penalty divides positive logits by `r` and
multiplies non-positive ones, then presence and frequency penalties are
subtracted (each step guarded exactly as in the source). -/
def penalizeOne (cfg : FilterParams alpha) (x : alpha) (c : Nat) : alpha :=
  let x1 := if cfg.repetitionPenalty ≠ 0 ∧ cfg.repetitionPenalty ≠ 1 then
      (if 0 < x then x / cfg.repetitionPenalty else x * cfg.repetitionPenalty)
    else x
  let x2 := if cfg.presencePenalty ≠ 0 then x1 - cfg.presencePenalty else x1
  if cfg.frequencyPenalty ≠ 0 then x2 - cfg.frequencyPenalty * (c : alpha) else x2

/-- Embedding of `applyPenalties`.  The Go code iterates over a
`map[int]int` of counts in unspecified order; since each distinct token id
updates a distinct logit entry, the result is order-independent and equals
this per-position formulation: entry `v` is penalized iff `v` occurs in
`prev` (ids outside `[0, len)` are skipped by construction, as in the
source's bounds check). -/
def applyPenalties (cfg : FilterParams alpha) (l : List alpha) (prev : List Int) :
    List alpha :=
  if prev = [] then l
  else l.mapIdx fun v x =>
    let c := prev.count (v : Int)
    if 0 < c then penalizeOne cfg x c else x

/-- Descending insertion: place `x` before the first strictly smaller
element.  One admissible result order of Go's unstable `sort.Slice` with
comparator `>`; no claim below depends on the order of equal elements. -/
def insertDesc (x : alpha) : List alpha → List alpha
  | [] => [x]
  | y :: ys => if y < x then x :: y :: ys else y :: insertDesc x ys

/-- Values sorted in descending order (insertion sort). -/
def sortDesc : List alpha → List alpha
  | [] => []
  | x :: xs => insertDesc x (sortDesc xs)

/-- Embedding of `topKFilter`: unchanged when `k ≤ 0` or `k ≥ len`;
otherwise every logit strictly below the k-th largest value is replaced by
the sentinel `-1e30`.  The Go code finds the threshold by sorting an index
array; only the k-th largest value is used, so we sort the values. -/
def topKFilter (l : List alpha) (k : Int) : List alpha :=
  if k ≤ 0 ∨ (l.length : Int) ≤ k then l
  else
    let thresh := (sortDesc l).getD (k.toNat - 1) 0
    l.map fun x => if x < thresh then -((10 : alpha) ^ 30) else x

/-- Descending insertion on `(index, value)` pairs, by value. -/
def insertIdxDesc (p : Nat × alpha) : List (Nat × alpha) → List (Nat × alpha)
  | [] => [p]
  | q :: qs => if q.2 < p.2 then p :: q :: qs else q :: insertIdxDesc p qs

/-- Indices of `l` sorted by value, descending (the `idx` array of
`topPFilter` after `sort.Slice`). -/
def sortIdxDesc (l : List alpha) : List Nat :=
  (l.enum.foldr insertIdxDesc []).map Prod.fst

/-- The cutoff scan of `topPFilter`: walk the sorted indices accumulating
probability mass; the cutoff is `rank + 1` at the first index where the
cumulative mass reaches `p`, and `len(probs)` if the mass never reaches
`p`. -/
def topPCutoff (probs : List alpha) (p : alpha) : List Nat → alpha → Nat → Nat
  | [], _, _ => probs.length
  | j :: js, cum, i =>
    let cum2 := cum + probs.getD j 0
    if p ≤ cum2 then i + 1 else topPCutoff probs p js cum2 (i + 1)

/-- Embedding of `topPFilter`: zero every probability whose descending rank
is at least the cutoff, then renormalize by the kept mass when it is
positive.  The kept mass summed by the source equals the sum of the zeroed
vector, which is the form used here. -/
def topPFilter (probs : List alpha) (p : alpha) : List alpha :=
  let idx := sortIdxDesc probs
  let keep := idx.take (topPCutoff probs p idx 0 0)
  let zeroed := probs.mapIdx fun j x => if j ∈ keep then x else 0
  let s := zeroed.sum
  if 0 < s then zeroed.map fun x => x * (1 / s) else zeroed

/-- Embedding of `softmax`: subtract the row maximum, exponentiate with
`fexp`, normalize by the sum.  The source indexes `logits[0]`, so the row
is non-empty in every call; on `[]` we return `[]`. -/
def softmax (fexp : alpha → alpha) : List alpha → List alpha
  | [] => []
  | x :: xs =>
    let m := xs.foldl max x
    let exps := (x :: xs).map fun v => fexp (v - m)
    let s := exps.sum
    exps.map fun e => e / s

/-- The inverse-CDF scan of `sampleFromProbs`: first index whose cumulative
probability exceeds the draw `r`. -/
def sampleLoop (r : alpha) : List alpha → alpha → Nat → Option Nat
  | [], _, _ => none
  | p :: ps, cum, i =>
    if r < cum + p then some i else sampleLoop r ps (cum + p) (i + 1)

/-- Embedding of `sampleFromProbs`: inverse-CDF sampling, falling back to
the last index `len(probs) - 1` when the scan never triggers. -/
def sampleFromProbs (probs : List alpha) (r : alpha) : Nat :=
  (sampleLoop r probs 0 0).getD (probs.length - 1)

/-- The body of `Sampler.Sample` for one row, operating on the per-row copy
`logitSlice`: temperature scaling (only when `temp > 0`), penalties (only
when a previous-token row was supplied), top-k, softmax, top-p, then the
inverse-CDF draw. -/
def sampleRow (fexp : alpha → alpha) (row : List alpha) (temp : alpha)
    (prev : Option (List Int)) (cfg : FilterParams alpha) (r : alpha) : Nat :=
  let l1 := if 0 < temp then row.map fun v => v / temp else row
  let l2 := match prev with
    | some pv => applyPenalties cfg l1 pv
    | none => l1
  let l3 := if 0 < cfg.topK then topKFilter l2 cfg.topK else l2
  let probs := softmax fexp l3
  let probs2 := if 0 < cfg.topP ∧ cfg.topP < 1 then topPFilter probs cfg.topP else probs
  sampleFromProbs probs2 r

/-- Effective filter configuration for row `i`: `DefaultParams` unless a
non-nil `params[i]` exists (`params != nil && i < len(params) && params[i] != nil`). -/
def effectiveFilter (params : Option (List (Option (SamplingParams alpha))))
    (i : Nat) : FilterParams alpha :=
  match params with
  | none => DefaultParams
  | some ps =>
    match ps.getD i none with
    | some q => filterOf q
    | none => DefaultParams

/-- Previous tokens for row `i` (`prevTokens != nil && i < len(prevTokens)`). -/
def prevFor (prevTokens : Option (List (List Int))) (i : Nat) :
    Option (List Int) :=
  match prevTokens with
  | none => none
  | some pts => pts.get? i

/-- The batch loop of `Sampler.Sample`; fails (like the Go index panic)
when `temperatures` is shorter than the batch. -/
def sampleAll (fexp : alpha → alpha) (temps : List alpha)
    (prevTokens : Option (List (List Int)))
    (params : Option (List (Option (SamplingParams alpha)))) (rs : Nat → alpha) :
    List (List alpha) → Nat → Option (List Nat)
  | [], _ => some []
  | row :: rows, i =>
    match temps.get? i with
    | none => none
    | some t =>
      let tok := sampleRow fexp row t (prevFor prevTokens i)
        (effectiveFilter params i) (rs i)
      match sampleAll fexp temps prevTokens params rs rows (i + 1) with
      | none => none
      | some toks => some (tok :: toks)

/-- Embedding of `Sampler.Sample`.  The second component of the result is
the caller's logits buffer after the call: the source copies each row into
a fresh `logitSlice` (`make` + `copy`) and every subsequent write targets
that copy, so the buffer the caller sees after the call is the input
unchanged, which is what this definition records. -/
def SamplerSample (fexp : alpha → alpha) (logits : List (List alpha))
    (temperatures : List alpha) (prevTokens : Option (List (List Int)))
    (params : Option (List (Option (SamplingParams alpha)))) (rs : Nat → alpha) :
    Option (List Nat × List (List alpha)) :=
  match sampleAll fexp temperatures prevTokens params rs logits 0 with
  | none => none
  | some toks => some (toks, logits)

/-- Arg-max as the spec's sampler step 1 describes it ("If T == 0,
short-circuit to arg-max"): the first index attaining the row maximum
(ties broken toward the lower token id, the spec's determinism rule). -/
def argmaxIdx (l : List alpha) : Nat :=
  (l.enum.foldl (fun best p => if best.2 < p.2 then p else best)
    (0, l.headD 0)).1

/-- A request with temperature 0 and all filters disabled (top-p 1, top-k
0, repetition penalty 1, no presence or frequency penalty), as the model
runner builds it from a greedy sequence's parameters. -/
def greedyReqParams : SamplingParams ℝ :=
  ⟨0, 16, false, 1, 0, 1, 0, 0⟩

/-- A filter-free request over `ℚ`, for concrete witness evaluation. -/
def plainReqParams : SamplingParams ℚ :=
  ⟨1, 16, false, 1, 0, 1, 0, 0⟩

/-! ### KV block manager (src/internal/engine/block_manager.go)

State embedding: `blocks` is the fixed array of blocks (a total function
from block id), `freeBlocks` is the free stack with its head as the top
(the Go code pushes and pops at the slice's end), and `hashToBlockID` is
the hash map as a partial function.  `computeHash` (SHA-1 truncated to 32
bits) is abstracted as an arbitrary function `hashFn : List Int → Nat`:
the manager consults the hash only through map lookups that are guarded by
the full token comparison `equalTokens`, so every theorem below is proved
for all hash functions, and concrete runs instantiate the executable
stand-in `hashModel`. -/

/-- A KV cache block: reference count, content hash, and the token ids
currently filling it. -/
structure Block where
  refCount : Int
  hash : Nat
  tokens : List Int
deriving DecidableEq

/-- Block-manager state. -/
structure BMState where
  blockSize : Nat
  blocks : Nat → Block
  freeBlocks : List Nat
  hashToBlockID : Nat → Option Nat

/-- Sequence state (src/internal/engine/sequence.go), restricted to the
fields the engine claims involve.  `NumTokens` is maintained equal to
`len(TokenIDs)` throughout the source (constructor and `AppendToken`), so
it is derived as `tokenIDs.length` rather than stored. -/
inductive SeqStatus where
  | waiting
  | running
  | finished
deriving DecidableEq

/-- A generation sequence. -/
structure Sequence where
  id : Nat
  status : SeqStatus
  tokenIDs : List Int
  lastToken : Int
  numPromptTokens : Nat
  numCachedTokens : Nat
  blockTable : List Nat
  maxTokens : Int
  ignoreEOS : Bool
deriving DecidableEq

/-- Pointwise update of the block array. -/
def setBlock (st : BMState) (bid : Nat) (b : Block) : BMState :=
  {st with blocks := fun j => if j = bid then b else st.blocks j}

/-- Insertion into the hash map (overwrites an existing binding, as Go
map assignment does). -/
def mapInsert (m : Nat → Option Nat) (k v : Nat) : Nat → Option Nat :=
  fun j => if j = k then some v else m j

/-- Deletion from the hash map. -/
def mapErase (m : Nat → Option Nat) (k : Nat) : Nat → Option Nat :=
  fun j => if j = k then none else m j

/-- A fresh block as `NewBlockManager` builds it. -/
def initialBlock : Block :=
  ⟨0, 0, []⟩

/-- Embedding of `NewBlockManager`: all blocks fresh, the free list holds
`0, …, numBlocks-1` with the highest id on top (Go pops from the slice
end), empty hash map. -/
def initBM (numBlocks blockSize : Nat) : BMState :=
  { blockSize := blockSize
  , blocks := fun _ => initialBlock
  , freeBlocks := (List.range numBlocks).reverse
  , hashToBlockID := fun _ => none }

/-- Embedding of `BlockManager.CanAllocate`: enough free blocks for
`ceil(seq.NumTokens / blockSize)` chunks. -/
def bmCanAllocate (st : BMState) (seq : Sequence) : Bool :=
  (seq.tokenIDs.length + st.blockSize - 1) / st.blockSize ≤ st.freeBlocks.length

/-- The chunk loop of `BlockManager.Allocate`, iterating chunk index `i`
with `remaining` chunks to go: on a hash hit with equal tokens the block is
rebound with an incremented refcount and the sequence's cached-token count
advances by the chunk length; otherwise a free block is popped (`none`
models the Go panic when the free list is empty), filled with the chunk and
published in the hash map. -/
def allocLoop (hashFn : List Int → Nat) (st : BMState) (seq : Sequence) :
    Nat → Nat → Option (BMState × Sequence)
  | 0, _ => some (st, seq)
  | remaining + 1, i =>
    let chunk := (seq.tokenIDs.drop (i * st.blockSize)).take st.blockSize
    let h := hashFn chunk
    let reuse : Option Nat :=
      match st.hashToBlockID h with
      | some bid => if (st.blocks bid).tokens = chunk then some bid else none
      | none => none
    match reuse with
    | some bid =>
      allocLoop hashFn
        (setBlock st bid {st.blocks bid with refCount := (st.blocks bid).refCount + 1})
        {seq with
          blockTable := seq.blockTable ++ [bid]
          numCachedTokens := seq.numCachedTokens + chunk.length}
        remaining (i + 1)
    | none =>
      match st.freeBlocks with
      | [] => none
      | bid :: rest =>
        let st1 := setBlock {st with freeBlocks := rest} bid ⟨1, h, chunk⟩
        let st2 := {st1 with hashToBlockID := mapInsert st1.hashToBlockID h bid}
        allocLoop hashFn st2 {seq with blockTable := seq.blockTable ++ [bid]}
          remaining (i + 1)

/-- Embedding of `BlockManager.Allocate`: reset the block table, then walk
the `ceil(len / blockSize)` chunks. -/
def bmAllocate (hashFn : List Int → Nat) (st : BMState) (seq : Sequence) :
    Option (BMState × Sequence) :=
  let numBlocks := (seq.tokenIDs.length + st.blockSize - 1) / st.blockSize
  allocLoop hashFn st {seq with blockTable := []} numBlocks 0

/-- The loop of `BlockManager.Free`: decrement each table entry's
refcount; on reaching zero, push the block on the free list, delete its
hash entry and clear it. -/
def freeLoop (st : BMState) : List Nat → BMState
  | [] => st
  | bid :: rest =>
    let b := st.blocks bid
    if b.refCount - 1 = 0 then
      let st1 := {st with
        freeBlocks := bid :: st.freeBlocks
        hashToBlockID := mapErase st.hashToBlockID b.hash}
      freeLoop (setBlock st1 bid ⟨0, 0, []⟩) rest
    else freeLoop (setBlock st bid {b with refCount := b.refCount - 1}) rest

/-- Embedding of `BlockManager.Free`: process the table, then clear the
sequence's table and cached-token count. -/
def bmFree (st : BMState) (seq : Sequence) : BMState × Sequence :=
  (freeLoop st seq.blockTable, {seq with blockTable := [], numCachedTokens := 0})

/-- Embedding of `BlockManager.CanAppend`: room in the last block, or a
free block available (also the rule when the table is empty). -/
def bmCanAppend (st : BMState) (seq : Sequence) : Bool :=
  match seq.blockTable.getLast? with
  | none => 0 < st.freeBlocks.length
  | some lastBid =>
    if (st.blocks lastBid).tokens.length < st.blockSize then true
    else 0 < st.freeBlocks.length

/-- Embedding of `BlockManager.Append`: with an empty table, pop a free
block and put the last token in it (its stale hash field is kept and it is
not published); with room in the last block, append the token, recompute
the hash and rebind the map entry; otherwise pop a free block, fill and
publish it. -/
def bmAppend (hashFn : List Int → Nat) (st : BMState) (seq : Sequence) :
    Option (BMState × Sequence) :=
  match seq.blockTable.getLast? with
  | none =>
    match st.freeBlocks with
    | [] => none
    | bid :: rest =>
      let b := st.blocks bid
      let st1 := setBlock {st with freeBlocks := rest} bid
        {b with refCount := 1, tokens := [seq.lastToken]}
      some (st1, {seq with blockTable := seq.blockTable ++ [bid]})
  | some lastBid =>
    let lastBlock := st.blocks lastBid
    if lastBlock.tokens.length < st.blockSize then
      let newTokens := lastBlock.tokens ++ [seq.lastToken]
      let h2 := hashFn newTokens
      let st1 := {st with hashToBlockID := mapErase st.hashToBlockID lastBlock.hash}
      let st2 := setBlock st1 lastBid {lastBlock with hash := h2, tokens := newTokens}
      some ({st2 with hashToBlockID := mapInsert st2.hashToBlockID h2 lastBid}, seq)
    else
      match st.freeBlocks with
      | [] => none
      | bid :: rest =>
        let h2 := hashFn [seq.lastToken]
        let st1 := setBlock {st with freeBlocks := rest} bid ⟨1, h2, [seq.lastToken]⟩
        let st2 := {st1 with hashToBlockID := mapInsert st1.hashToBlockID h2 bid}
        some (st2, {seq with blockTable := seq.blockTable ++ [bid]})

/-- Executable stand-in for `computeHash` (SHA-1 truncated to 32 bits in
the source).  Any function of the ordered token tuple is admissible for
the theorems here, which hold for every `hashFn`; concrete runs use this
injective-on-small-inputs polynomial fingerprint. -/
def hashModel (tokens : List Int) : Nat :=
  tokens.foldl (fun acc t => acc * 4294967311 + (t + 2147483648).toNat) 7

/-! ### C2: blocks published in the hash map (invariant)

The original claim (`filled_length == B` for every block in the map) fails:
`Allocate` publishes the final, possibly partial chunk of a sequence, and
`Append` rebinds a partially filled block after every appended token.  The
amended invariant proved below: every block in the map is filled to at most
`blockSize`.  Reachability closes the initial state under `Allocate`,
`Append` and `Free` with arbitrary sequence arguments, which subsumes every
interleaving the engine can produce. -/

/-- States reachable from a fresh block manager by any interleaving of
`Allocate`, `Append` and `Free` (a step is taken only when the Go code
would not panic, i.e. when the embedded operation returns `some`). -/
inductive BMReach (hashFn : List Int → Nat) : BMState → Prop where
  | init : ∀ numBlocks blockSize : Nat, 0 < blockSize →
      BMReach hashFn (initBM numBlocks blockSize)
  | alloc : ∀ {st st' : BMState} {seq seq' : Sequence}, BMReach hashFn st →
      bmAllocate hashFn st seq = some (st', seq') → BMReach hashFn st'
  | append : ∀ {st st' : BMState} {seq seq' : Sequence}, BMReach hashFn st →
      bmAppend hashFn st seq = some (st', seq') → BMReach hashFn st'
  | free : ∀ {st : BMState} (seq : Sequence), BMReach hashFn st →
      BMReach hashFn (bmFree st seq).1

/-- Capacity invariant: a positive block size, and every block (in
particular every block reachable through the hash map) filled to at most
`blockSize`. -/
def BMCapInv (st : BMState) : Prop :=
  0 < st.blockSize ∧ ∀ bid, (st.blocks bid).tokens.length ≤ st.blockSize

/-- A one-token sequence (block size will be 4, so its single chunk is
partial). -/
def seqOneTok : Sequence :=
  ⟨0, SeqStatus.waiting, [7], 7, 1, 0, [], 16, false⟩

/-- Result of allocating the one-token sequence on a fresh two-block
manager with block size 4. -/
def bmPartialRes : BMState × Sequence :=
  (bmAllocate hashModel (initBM 2 4) seqOneTok).getD (initBM 2 4, seqOneTok)

/-! ### C6: `CanAllocate` and prefix sharing

`BlockManager.CanAllocate` compares the free-block count against
`ceil(seq.NumTokens / blockSize)` and never consults the hash map, so
prefix-shared chunks are not discounted, contrary to the claim. -/

/-- Whether a chunk would hit an existing shared full block (the spec's
"existing shared full-block prefix hit": a hash-map entry whose block holds
exactly these tokens and is full). -/
def sharedHit (hashFn : List Int → Nat) (st : BMState) (c : List Int) : Bool :=
  match st.hashToBlockID (hashFn c) with
  | some bid =>
    decide ((st.blocks bid).tokens = c ∧ (st.blocks bid).tokens.length = st.blockSize)
  | none => false

/-- Following the spec's words for `can_allocate(seq)`: enough free blocks
to cover `ceil(seq.len / B)`, discounting any prefix-shared blocks.  This
definition exists for comparison with `bmCanAllocate` (which is translated
from the source); the counterexample below separates the two. -/
def canAllocateSpec (hashFn : List Int → Nat) (st : BMState) (seq : Sequence) :
    Bool :=
  let B := st.blockSize
  let numChunks := (seq.tokenIDs.length + B - 1) / B
  let chunks := (List.range numChunks).map fun i => (seq.tokenIDs.drop (i * B)).take B
  decide ((chunks.filter fun c => !(sharedHit hashFn st c)).length ≤
    st.freeBlocks.length)

/-- A four-token sequence filling exactly one block of size 4. -/
def seqFourTok : Sequence :=
  ⟨1, SeqStatus.waiting, [7, 8, 9, 10], 10, 4, 0, [], 16, false⟩

/-- Result of allocating the four-token sequence on a fresh one-block
manager with block size 4 (the pool is now exhausted and the block is a
published full block). -/
def bmFullRes : BMState × Sequence :=
  (bmAllocate hashModel (initBM 1 4) seqFourTok).getD (initBM 1 4, seqFourTok)

/-- A second sequence with the same four tokens, eligible for a full
prefix hit. -/
def seqFourTokB : Sequence :=
  ⟨2, SeqStatus.waiting, [7, 8, 9, 10], 10, 4, 0, [], 16, false⟩

/-! ### Scheduler (src/internal/engine/scheduler.go)

Sequences are shared mutable objects: the queues hold pointers, and
`Allocate`, `Append` and `PostProcess` mutate the pointed-to sequences.
The embedding therefore keeps a store `store : Nat → Sequence` indexed by
sequence id, and the two queues are lists of ids; the source's
`Sequence.ID` field is by construction the store index. -/

/-- Scheduler state. -/
structure SchedState where
  maxNumSeqs : Nat
  maxNumBatchedTokens : Int
  eosTokenID : Int
  bm : BMState
  store : Nat → Sequence
  waiting : List Nat
  running : List Nat

/-- Pointwise update of the sequence store. -/
def setSeq (store : Nat → Sequence) (sid : Nat) (s : Sequence) :
    Nat → Sequence :=
  fun j => if j = sid then s else store j

/-- Embedding of `Scheduler.canSchedule`: batch size below `maxNumSeqs`,
the sequence's own `NumTokens - NumCachedTokens` at most
`maxNumBatchedTokens` (the source tests `tokensNeeded > s.maxNumBatchedTokens`
for rejection), and `CanAllocate`. -/
def canSchedule (st : SchedState) (seq : Sequence) (currentBatchSize : Nat) :
    Bool :=
  if st.maxNumSeqs ≤ currentBatchSize then false
  else if st.maxNumBatchedTokens <
      (seq.tokenIDs.length : Int) - (seq.numCachedTokens : Int) then false
  else bmCanAllocate st.bm seq

/-- The prefill loop of `Scheduler.Schedule`: drain the front of `waiting`
while the batch is below `maxNumSeqs` and `canSchedule` holds; each
admitted sequence is allocated, marked Running and pushed to the back of
`running`.  The `waiting` queue is threaded as an explicit argument and
written back on every exit. -/
def prefillLoop (hashFn : List Int → Nat) (st : SchedState)
    (scheduled : List Nat) : List Nat → Option (List Nat × SchedState)
  | [] => some (scheduled, {st with waiting := []})
  | sid :: rest =>
    if scheduled.length < st.maxNumSeqs then
      if canSchedule st (st.store sid) scheduled.length then
        match bmAllocate hashFn st.bm (st.store sid) with
        | none => none
        | some (bm2, s2) =>
          prefillLoop hashFn
            {st with
              bm := bm2
              store := setSeq st.store sid {s2 with status := SeqStatus.running}
              running := st.running ++ [sid]}
            (scheduled ++ [sid]) rest
      else some (scheduled, {st with waiting := sid :: rest})
    else some (scheduled, {st with waiting := sid :: rest})

/-- The decode walk of `Scheduler.Schedule`: cursor `i` over `running`;
a sequence that can append is appended and joins the batch; otherwise it
is preempted — removed from `running`, freed, set Waiting and pushed to
the front of `waiting` — and the walk restarts from the front of
`running`.  Already-scheduled ids stay in `running`, exactly as in the
source (where the restart can therefore revisit them). -/
def decodeWalk (hashFn : List Int → Nat) (st : SchedState)
    (scheduled : List Nat) (i : Nat) : Option (List Nat × SchedState) :=
  if h : i < st.running.length ∧ scheduled.length < st.maxNumSeqs then
    let sid := st.running.get ⟨i, h.1⟩
    let s := st.store sid
    if bmCanAppend st.bm s then
      match bmAppend hashFn st.bm s with
      | none => none
      | some (bm2, s2) =>
        decodeWalk hashFn {st with bm := bm2, store := setSeq st.store sid s2}
          (scheduled ++ [sid]) (i + 1)
    else
      let fr := bmFree st.bm s
      decodeWalk hashFn
        {st with
          bm := fr.1
          store := setSeq st.store sid {fr.2 with status := SeqStatus.waiting}
          running := st.running.eraseIdx i
          waiting := sid :: st.waiting}
        scheduled 0
  else some (scheduled, st)
termination_by (st.running.length, st.running.length - i)
decreasing_by
  all_goals simp_wf
  · exact Prod.Lex.right _ (by omega)
  · exact Prod.Lex.left _ _
      (by have h2 := List.length_eraseIdx_add_one h.1; omega)

/-- Embedding of `Scheduler.Schedule`: try prefill first; if any sequence
was admitted return the batch with `is_prefill = true`, otherwise run the
decode walk and return its batch with `is_prefill = false`. -/
def schedule (hashFn : List Int → Nat) (st : SchedState) :
    Option (List Nat × Bool × SchedState) :=
  match prefillLoop hashFn st [] st.waiting with
  | none => none
  | some (sched, st1) =>
    if 0 < sched.length then some (sched, true, st1)
    else
      match decodeWalk hashFn st1 [] 0 with
      | none => none
      | some (sched2, st2) => some (sched2, false, st2)

/-- Embedding of `Sequence.AppendToken`. -/
def appendTokenSeq (s : Sequence) (tok : Int) : Sequence :=
  {s with tokenIDs := s.tokenIDs ++ [tok], lastToken := tok}

/-- The finish test of `Scheduler.PostProcess`, evaluated on the sequence
after the token append: `(!ignore_eos && tid == eos) || completion_len ≥
max_tokens`. -/
def finishFlag (eos : Int) (s : Sequence) (tok : Int) : Bool :=
  (!s.ignoreEOS && decide (tok = eos)) ||
    decide (s.maxTokens ≤ (s.tokenIDs.length : Int) - (s.numPromptTokens : Int))

/-- The loop of `Scheduler.PostProcess`: append each sampled token to its
sequence; a finished sequence is marked Finished, its blocks freed, and
its id removed from `running` (first match, as the source's id scan).
Returns `none` when there are fewer sampled tokens than sequences (the Go
index panic); extra tokens are ignored, as in the source's `range` over
the batch.  State update for a finished batch entry: mark Finished, free
the blocks, remove the id from `running` (first match, as the source's id
scan). -/
def ppFinish (st : SchedState) (sid : Nat) (s1 : Sequence) : SchedState :=
  let fr := bmFree st.bm s1
  {st with
    bm := fr.1
    store := setSeq st.store sid {fr.2 with status := SeqStatus.finished}
    running := st.running.erase sid}

/-- State update for an unfinished batch entry: only the appended sequence
is written back. -/
def ppKeep (st : SchedState) (sid : Nat) (s1 : Sequence) : SchedState :=
  {st with store := setSeq st.store sid s1}

def ppLoop (st : SchedState) : List Nat → List Int → Option (List Bool × SchedState)
  | [], _ => some ([], st)
  | _ :: _, [] => none
  | sid :: ids, tok :: toks =>
    let s1 := appendTokenSeq (st.store sid) tok
    if finishFlag st.eosTokenID s1 tok then
      match ppLoop (ppFinish st sid s1) ids toks with
      | none => none
      | some (flags, st2) => some (true :: flags, st2)
    else
      match ppLoop (ppKeep st sid s1) ids toks with
      | none => none
      | some (flags, st2) => some (false :: flags, st2)

/-- Embedding of `Scheduler.PostProcess`. -/
def postProcess (st : SchedState) (ids : List Nat) (toks : List Int) :
    Option (List Bool × SchedState) :=
  ppLoop st ids toks

/-- A two-token prompt for the C7 witness. -/
def seqTwoTok : Sequence :=
  ⟨9, SeqStatus.waiting, [4, 5], 5, 2, 0, [], 16, false⟩

/-- Scheduler state for the C7 witness: one waiting sequence, nothing
running. -/
def stPrefillOnly : SchedState :=
  ⟨2, 100, -1, initBM 2 4, fun _ => seqTwoTok, [9], []⟩

/-- The state returned by `Schedule` on the C7 witness state. -/
def stPrefillOnlyRes : SchedState :=
  ((schedule hashModel stPrefillOnly).getD ([], false, stPrefillOnly)).2.2

/-- First over-budget prompt (10 tokens). -/
def seqTenA : Sequence :=
  ⟨0, SeqStatus.waiting, [1, 2, 3, 4, 5, 6, 7, 8, 9, 10], 10, 10, 0, [], 100, false⟩

/-- Second over-budget prompt (10 different tokens). -/
def seqTenB : Sequence :=
  ⟨1, SeqStatus.waiting, [11, 12, 13, 14, 15, 16, 17, 18, 19, 20], 20, 10, 0, [],
    100, false⟩

/-- Store holding the two ten-token prompts. -/
def storeTwoTen : Nat → Sequence :=
  fun sid => if sid = 0 then seqTenA else seqTenB

/-- A scheduler state with budget 15 and two waiting ten-token prompts. -/
def stOverBudget : SchedState :=
  ⟨4, 15, -1, initBM 8 4, storeTwoTen, [0, 1], []⟩

/-- A three-token prompt within every bound. -/
def seqThreeTok : Sequence :=
  ⟨0, SeqStatus.waiting, [1, 2, 3], 3, 3, 0, [], 100, false⟩

/-- A small state admitting exactly the three-token prompt. -/
def stSmall : SchedState :=
  ⟨2, 15, -1, initBM 2 4, fun _ => seqThreeTok, [0], []⟩

/-- The state returned by `Schedule` on `stSmall`. -/
def stSmallRes : SchedState :=
  ((schedule hashModel stSmall).getD ([], true, stSmall)).2.2

/-- The sequence whose eos step the C8 witness exercises. -/
def seqPP : Sequence :=
  ⟨5, SeqStatus.running, [1, 2], 2, 2, 0, [0], 10, false⟩

/-- Block-manager state backing the C8 witness. -/
def bmPP : BMState :=
  { blockSize := 4
  , blocks := fun j => if j = 0 then ⟨1, hashModel [1, 2], [1, 2]⟩ else initialBlock
  , freeBlocks := [1]
  , hashToBlockID := fun h => if h = hashModel [1, 2] then some 0 else none }

/-- Scheduler state for the C8 witness: eos id 9, one running sequence. -/
def stPP : SchedState :=
  ⟨4, 16384, 9, bmPP, fun _ => seqPP, [], [5]⟩

/-- Post-processing result of sampling the eos token 9 for sequence 5. -/
def stPPRes : SchedState :=
  ((postProcess stPP [5] [9]).getD ([], stPP)).2

/-! ### C4: `Generate` output collection (src/internal/engine/llm_engine.go)

`Generate` gathers finished sequences into a Go map `outputs` keyed by
sequence id (`AddRequest` assigns ids in prompt order), then fills the
result vector with the loop

  for i := range prompts { for _, output := range outputs { result[i] = output; break } }

so every `result[i]` is the first entry of one map iteration, not the
output of prompt `i`'s own sequence.  Go map iteration order is
unspecified, so the order each `range outputs` observes is an explicit
argument `iters i` (a permutation of the map entries); `result[i]` stays
nil (here `none`) when the map is empty. -/

/-- The final generation output for one sequence (`GenerationOutput`). -/
structure GenerationOutput where
  text : String
  tokenIDs : List Int
deriving DecidableEq

/-- Embedding of the output-collection loop at the end of
`LLMEngine.Generate`. -/
def collectOutputs (numPrompts : Nat)
    (iters : Nat → List (Nat × GenerationOutput)) :
    List (Option GenerationOutput) :=
  (List.range numPrompts).map fun i => ((iters i).head?).map Prod.snd

/-- Output of sequence 0. -/
def outSeqA : GenerationOutput :=
  ⟨"A", [1]⟩

/-- Output of sequence 1. -/
def outSeqB : GenerationOutput :=
  ⟨"B", [2]⟩

/-! ### Theorems -/

/-- C9: decoding a 16-bit value `h` as BF16 yields the float32 whose bit
pattern is `h` shifted left by 16 (in particular a proper `uint32`), and for
any float32 word `f` with its low 16 bits zero, truncating to the upper 16
bits and decoding round-trips to `f` exactly. -/
theorem bf16_decode_shift_and_roundtrip (h : Nat) (hh : h < 2 ^ 16) :
    bfloat16ToFloat32Bits h = h * 2 ^ 16 ∧
    bfloat16ToFloat32Bits h < 2 ^ 32 ∧
    ∀ f : Nat, f < 2 ^ 32 → f % 2 ^ 16 = 0 →
      bfloat16ToFloat32Bits (bf16OfFloat32Bits f) = f := by
  have hshift : ∀ a : Nat, bfloat16ToFloat32Bits a = a * 2 ^ 16 := by
    intro a
    show a <<< 16 = a * 2 ^ 16
    exact Nat.shiftLeft_eq a 16
  refine ⟨hshift h, ?_, ?_⟩
  · have hlt : h * 2 ^ 16 < 2 ^ 16 * 2 ^ 16 :=
      Nat.mul_lt_mul_of_lt_of_le hh (le_refl _) (by norm_num)
    rw [hshift]
    calc h * 2 ^ 16 < 2 ^ 16 * 2 ^ 16 := hlt
      _ = 2 ^ 32 := by norm_num
  · intro f _ hf
    have hdvd : 2 ^ 16 ∣ f := Nat.dvd_of_mod_eq_zero hf
    rw [hshift, bf16OfFloat32Bits, Nat.div_mul_cancel hdvd]

/-- Witness for C9 at the concrete BF16 word 0x3F80 (= 1.0f) and the float32
word 0x3F800000. -/
theorem bf16_decode_shift_and_roundtrip_witness :
    16256 < 2 ^ 16 ∧ bfloat16ToFloat32Bits 16256 = 16256 * 2 ^ 16 ∧
      bfloat16ToFloat32Bits (bf16OfFloat32Bits 1065353216) = 1065353216 := by
  have hh : 16256 < 2 ^ 16 := by norm_num
  obtain ⟨h1, _, h3⟩ := bf16_decode_shift_and_roundtrip 16256 hh
  exact ⟨hh, h1, h3 1065353216 (by norm_num) (by norm_num)⟩

/-- C1 counterexample: `Sampler.Sample` has no arg-max short-circuit for
temperature 0.  On the logits row `[5, 5]` with temperature 0, no prior
tokens and all filters disabled, the code skips only the temperature
division (`temp > 0` is false) and then samples from the softmax of the
unscaled logits with the uniform draw: draw 7/10 yields token 1 and draw
1/10 yields token 0, while the arg-max of the row is index 0.  So the
returned token is not the arg-max and does depend on the random draw. -/
theorem sample_at_zero_temperature_consults_draw :
    SamplerSample Real.exp [[5, 5]] [0] (some [[]]) (some [some greedyReqParams])
      (fun _ => 7 / 10) = some ([1], [[5, 5]]) ∧
    SamplerSample Real.exp [[5, 5]] [0] (some [[]]) (some [some greedyReqParams])
      (fun _ => 1 / 10) = some ([0], [[5, 5]]) ∧
    argmaxIdx ([5, 5] : List ℝ) = 0 := by
  norm_num [SamplerSample, sampleAll, sampleRow, prevFor, effectiveFilter,
    filterOf, greedyReqParams, applyPenalties, softmax, sampleFromProbs,
    sampleLoop, argmaxIdx, List.enum, List.enumFrom, List.headD, List.get?,
    Real.exp_zero]

/-- C5 counterexample: when every post-filter probability is zero, the
sampler does not fall back to the arg-max of the pre-mask logits: the
inverse-CDF scan of `sampleFromProbs` never triggers (the cumulative sum
stays 0 and the draw is non-negative) and the function returns the last
index `len(probs) - 1`.  With pre-mask logits `[5, 1, 1, 1]` (arg-max 0)
and an all-zero probability row, the returned token is 3, not 0. -/
theorem sample_all_masked_returns_last_index :
    sampleFromProbs ([0, 0, 0, 0] : List ℚ) (1 / 2) = 3 ∧
    argmaxIdx ([5, 1, 1, 1] : List ℚ) = 0 ∧
    sampleFromProbs ([0, 0, 0, 0] : List ℚ) (1 / 2) ≠
      argmaxIdx ([5, 1, 1, 1] : List ℚ) := by
  have h1 : sampleFromProbs ([0, 0, 0, 0] : List ℚ) (1 / 2) = 3 := by
    norm_num [sampleFromProbs, sampleLoop]
  have h2 : argmaxIdx ([5, 1, 1, 1] : List ℚ) = 0 := by
    norm_num [argmaxIdx, List.enum, List.enumFrom, List.headD]
  exact ⟨h1, h2, by rw [h1, h2]; norm_num⟩

/-- Helper for C5: the inverse-CDF scan returns `none` on an all-zero
suffix when the accumulated mass is zero and the draw is non-negative. -/
theorem sampleLoop_all_zero (r : ℚ) (hr : 0 ≤ r) :
    ∀ (ps : List ℚ), (∀ p ∈ ps, p = 0) → ∀ i, sampleLoop r ps 0 i = none := by
  intro ps
  induction ps with
  | nil => intro _ _; rfl
  | cons p ps ih =>
    intro hz i
    have hp : p = 0 := hz p (by simp)
    have hrest : ∀ q ∈ ps, q = 0 := fun q hq => hz q (by simp [hq])
    simp only [sampleLoop, hp, add_zero]
    rw [if_neg (by exact not_lt.mpr hr)]
    exact ih hrest (i + 1)

/-- C5 amended: on a row whose post-filter probabilities are all zero, the
sampler returns the last token index `len(probs) - 1`, independent of the
pre-mask logits. -/
theorem sample_all_masked_last_index (probs : List ℚ) (r : ℚ)
    (hz : ∀ p ∈ probs, p = 0) (hr : 0 ≤ r) :
    sampleFromProbs probs r = probs.length - 1 := by
  unfold sampleFromProbs
  rw [sampleLoop_all_zero r hr probs hz 0]
  rfl

/-- Witness for the amended C5 at the concrete all-zero row `[0, 0]` with
draw 0. -/
theorem sample_all_masked_last_index_witness :
    (∀ p ∈ ([0, 0] : List ℚ), p = 0) ∧ sampleFromProbs ([0, 0] : List ℚ) 0 = 1 :=
  ⟨by simp, sample_all_masked_last_index [0, 0] 0 (by simp) (le_refl 0)⟩

/-- C10: `Sampler.Sample` never mutates the caller's logits buffer: all
temperature scaling, penalties and filters are applied to a per-row copy,
so the buffer visible after a successful call equals the input. -/
theorem sample_preserves_logits_buffer (fexp : alpha → alpha)
    (logits : List (List alpha)) (temperatures : List alpha)
    (prevTokens : Option (List (List Int)))
    (params : Option (List (Option (SamplingParams alpha)))) (rs : Nat → alpha)
    (toks : List Nat) (buf : List (List alpha))
    (hcall : SamplerSample fexp logits temperatures prevTokens params rs =
      some (toks, buf)) :
    buf = logits := by
  unfold SamplerSample at hcall
  cases hall : sampleAll fexp temperatures prevTokens params rs logits 0 with
  | none => rw [hall] at hcall; exact absurd hcall (by simp)
  | some t =>
    rw [hall] at hcall
    have h1 := Option.some_injective _ hcall
    exact (congrArg Prod.snd h1).symm

/-- Witness for C10 on a concrete one-row batch over `ℚ`. -/
theorem sample_preserves_logits_buffer_witness :
    SamplerSample (fun _ => (1 : ℚ)) [[1, 2]] [1] none
      (some [some plainReqParams]) (fun _ => 0) = some ([0], [[1, 2]]) ∧
    ([[1, 2]] : List (List ℚ)) = [[1, 2]] := by
  have hcall : SamplerSample (fun _ => (1 : ℚ)) [[1, 2]] [1] none
      (some [some plainReqParams]) (fun _ => 0) = some ([0], [[1, 2]]) := by
    norm_num [SamplerSample, sampleAll, sampleRow, prevFor, effectiveFilter,
      filterOf, plainReqParams, softmax, sampleFromProbs, sampleLoop, List.get?]
  exact ⟨hcall, sample_preserves_logits_buffer (fun _ => 1) [[1, 2]] [1] none
    (some [some plainReqParams]) (fun _ => 0) [0] [[1, 2]] hcall⟩

theorem setBlock_blockSize (st : BMState) (bid : Nat) (b : Block) :
    (setBlock st bid b).blockSize = st.blockSize := rfl

theorem setBlock_blocks (st : BMState) (bid : Nat) (b : Block) (j : Nat) :
    (setBlock st bid b).blocks j = if j = bid then b else st.blocks j := rfl

/-- Every chunk sliced by the allocate loop fits in a block. -/
theorem chunk_length_le (l : List Int) (s B : Nat) :
    ((l.drop s).take B).length ≤ B := by
  rw [List.length_take]
  exact min_le_left _ _

theorem allocLoop_capacity (hashFn : List Int → Nat) :
    ∀ (remaining i : Nat) (st : BMState) (seq : Sequence) (st' : BMState)
      (seq' : Sequence),
      allocLoop hashFn st seq remaining i = some (st', seq') →
      BMCapInv st → BMCapInv st' := by
  intro remaining
  induction remaining with
  | zero =>
    intro i st seq st' seq' h hcap
    simp only [allocLoop, Option.some.injEq, Prod.mk.injEq] at h
    obtain ⟨h1, _⟩ := h
    rwa [← h1]
  | succ n ih =>
    intro i st seq st' seq' h hcap
    simp only [allocLoop] at h
    split at h
    · -- reuse: only the refcount of an existing block changes
      refine ih (i + 1) _ _ st' seq' h ⟨hcap.1, fun j => ?_⟩
      rw [setBlock_blocks]
      split
      · exact hcap.2 _
      · exact hcap.2 j
    · -- fresh: pop a free block and fill it with the chunk
      split at h
      · exact absurd h (by simp)
      · refine ih (i + 1) _ _ st' seq' h ⟨hcap.1, fun j => ?_⟩
        show ((setBlock _ _ _).blocks j).tokens.length ≤ _
        rw [setBlock_blocks]
        split
        · exact chunk_length_le _ _ _
        · exact hcap.2 j

theorem bmAllocate_capacity (hashFn : List Int → Nat) (st : BMState)
    (seq : Sequence) (st' : BMState) (seq' : Sequence)
    (h : bmAllocate hashFn st seq = some (st', seq')) (hcap : BMCapInv st) :
    BMCapInv st' :=
  allocLoop_capacity hashFn _ 0 st _ st' seq' h hcap

theorem bmAppend_capacity (hashFn : List Int → Nat) (st : BMState)
    (seq : Sequence) (st' : BMState) (seq' : Sequence)
    (h : bmAppend hashFn st seq = some (st', seq')) (hcap : BMCapInv st) :
    BMCapInv st' := by
  cases hlast : seq.blockTable.getLast? with
  | none =>
    cases hfree : st.freeBlocks with
    | nil =>
      simp only [bmAppend, hlast, hfree] at h
      exact Option.noConfusion h
    | cons fbid rest =>
      simp only [bmAppend, hlast, hfree, Option.some.injEq, Prod.mk.injEq] at h
      obtain ⟨h1, _⟩ := h
      rw [← h1]
      refine ⟨hcap.1, fun j => ?_⟩
      rw [setBlock_blocks]
      split
      · exact hcap.1
      · exact hcap.2 j
  | some lastBid =>
    by_cases hroom : (st.blocks lastBid).tokens.length < st.blockSize
    · simp only [bmAppend, hlast, if_pos hroom, Option.some.injEq,
        Prod.mk.injEq] at h
      obtain ⟨h1, _⟩ := h
      rw [← h1]
      refine ⟨hcap.1, fun j => ?_⟩
      show ((setBlock _ _ _).blocks j).tokens.length ≤ _
      rw [setBlock_blocks]
      split
      · simpa using hroom
      · exact hcap.2 j
    · cases hfree : st.freeBlocks with
      | nil =>
        simp only [bmAppend, hlast, if_neg hroom, hfree] at h
        exact Option.noConfusion h
      | cons fbid rest =>
        simp only [bmAppend, hlast, if_neg hroom, hfree, Option.some.injEq,
          Prod.mk.injEq] at h
        obtain ⟨h1, _⟩ := h
        rw [← h1]
        refine ⟨hcap.1, fun j => ?_⟩
        show ((setBlock _ _ _).blocks j).tokens.length ≤ _
        rw [setBlock_blocks]
        split
        · exact hcap.1
        · exact hcap.2 j

theorem freeLoop_capacity (tbl : List Nat) :
    ∀ st : BMState, BMCapInv st → BMCapInv (freeLoop st tbl) := by
  induction tbl with
  | nil => intro st hcap; exact hcap
  | cons bid rest ih =>
    intro st hcap
    rw [freeLoop]
    by_cases hz : (st.blocks bid).refCount - 1 = 0
    · rw [if_pos hz]
      refine ih _ ⟨hcap.1, fun j => ?_⟩
      rw [setBlock_blocks]
      by_cases hj : j = bid
      · rw [if_pos hj]
        simp
      · rw [if_neg hj]
        exact hcap.2 j
    · rw [if_neg hz]
      refine ih _ ⟨hcap.1, fun j => ?_⟩
      rw [setBlock_blocks]
      by_cases hj : j = bid
      · rw [if_pos hj]
        exact hcap.2 bid
      · rw [if_neg hj]
        exact hcap.2 j

theorem bmFree_capacity (st : BMState) (seq : Sequence) (hcap : BMCapInv st) :
    BMCapInv (bmFree st seq).1 :=
  freeLoop_capacity seq.blockTable st hcap

/-- Every reachable block-manager state satisfies the capacity invariant. -/
theorem BMReach_capacity (hashFn : List Int → Nat) (st : BMState)
    (h : BMReach hashFn st) : BMCapInv st := by
  induction h with
  | init numBlocks blockSize hB =>
    exact ⟨hB, fun _ => Nat.zero_le _⟩
  | alloc _ hstep ih => exact bmAllocate_capacity hashFn _ _ _ _ hstep ih
  | append _ hstep ih => exact bmAppend_capacity hashFn _ _ _ _ hstep ih
  | free seq _ ih => exact bmFree_capacity _ seq ih

/-- C2 amended: in every state reachable by any interleaving of `Allocate`,
`Append` and `Free`, every block that appears as a value in the hash map
has filled length at most the block capacity (not exactly the capacity:
partially filled blocks are also published, see the counterexample). -/
theorem hash_map_blocks_at_most_capacity (hashFn : List Int → Nat)
    (st : BMState) (h : BMReach hashFn st) (k bid : Nat)
    (_hk : st.hashToBlockID k = some bid) :
    (st.blocks bid).tokens.length ≤ st.blockSize :=
  (BMReach_capacity hashFn st h).2 bid

/-- C2 counterexample: after a single `Allocate` of a one-token sequence on
a fresh manager with block size 4, the hash map contains block 1 with
filled length 1, not 4 — a partially filled block is published for
sharing. -/
theorem allocate_publishes_partial_block :
    (bmAllocate hashModel (initBM 2 4) seqOneTok).isSome = true ∧
    bmPartialRes.1.hashToBlockID (hashModel [7]) = some 1 ∧
    (bmPartialRes.1.blocks 1).tokens.length = 1 ∧
    bmPartialRes.1.blockSize = 4 := by
  exact ⟨rfl, rfl, rfl, rfl⟩

/-- Witness for the amended C2 at the state reached by that same
allocation. -/
theorem hash_map_blocks_at_most_capacity_witness :
    bmPartialRes.1.hashToBlockID (hashModel [7]) = some 1 ∧
    (bmPartialRes.1.blocks 1).tokens.length ≤ bmPartialRes.1.blockSize := by
  have hmem : bmPartialRes.1.hashToBlockID (hashModel [7]) = some 1 := rfl
  have hreach : BMReach hashModel bmPartialRes.1 :=
    BMReach.alloc (BMReach.init 2 4 (by norm_num))
      (rfl : bmAllocate hashModel (initBM 2 4) seqOneTok =
        some (bmPartialRes.1, bmPartialRes.2))
  exact ⟨hmem,
    hash_map_blocks_at_most_capacity hashModel bmPartialRes.1 hreach
      (hashModel [7]) 1 hmem⟩

/-- C6 counterexample: with the pool exhausted but the whole sequence
covered by an existing shared full block, `CanAllocate` returns false —
the code requires `ceil(len / B)` free blocks and discounts nothing —
while the spec's discounted count would admit the sequence. -/
theorem canAllocate_does_not_discount_shared :
    bmCanAllocate bmFullRes.1 seqFourTokB = false ∧
    canAllocateSpec hashModel bmFullRes.1 seqFourTokB = true ∧
    bmFullRes.1.freeBlocks = [] := by
  refine ⟨rfl, ?_, rfl⟩
  rfl

/-- The allocate loop succeeds whenever at least `remaining` free blocks
are available: each iteration pops at most one. -/
theorem allocLoop_isSome (hashFn : List Int → Nat) :
    ∀ (remaining i : Nat) (st : BMState) (seq : Sequence),
      remaining ≤ st.freeBlocks.length →
      (allocLoop hashFn st seq remaining i).isSome = true := by
  intro remaining
  induction remaining with
  | zero =>
    intro i st seq _
    simp [allocLoop]
  | succ n ih =>
    intro i st seq hfree
    simp only [allocLoop]
    split
    · exact ih (i + 1) _ _ (Nat.le_of_succ_le hfree)
    · split
      · rename_i hnil
        rw [hnil] at hfree
        exact absurd hfree (by simp)
      · rename_i fbid rest hcons
        refine ih (i + 1) _ _ ?_
        show n ≤ rest.length
        rw [hcons] at hfree
        simpa using Nat.le_of_succ_le_succ hfree

/-- C6 amended: `CanAllocate(seq)` returns true exactly when the number of
free blocks is at least `ceil(seq.NumTokens / B)`, with no discount for
prefix-shared chunks; and whenever it returns true, `Allocate(seq)`
succeeds (the free list never runs dry during the chunk walk). -/
theorem canAllocate_iff_free_ge_ceil (hashFn : List Int → Nat) (st : BMState)
    (seq : Sequence) :
    (bmCanAllocate st seq = true ↔
      (seq.tokenIDs.length + st.blockSize - 1) / st.blockSize ≤
        st.freeBlocks.length) ∧
    (bmCanAllocate st seq = true → (bmAllocate hashFn st seq).isSome = true) := by
  constructor
  · simp [bmCanAllocate]
  · intro hcan
    have hle : (seq.tokenIDs.length + st.blockSize - 1) / st.blockSize ≤
        st.freeBlocks.length := by
      simpa [bmCanAllocate] using hcan
    exact allocLoop_isSome hashFn _ 0 st _ hle

/-- Witness for the amended C6 on a fresh two-block manager. -/
theorem canAllocate_iff_free_ge_ceil_witness :
    bmCanAllocate (initBM 2 4) seqFourTok = true ∧
    (bmAllocate hashModel (initBM 2 4) seqFourTok).isSome = true := by
  have h := canAllocate_iff_free_ge_ceil hashModel (initBM 2 4) seqFourTok
  exact ⟨rfl, h.2 rfl⟩

/-! ### C7: batches are homogeneous (prefill xor decode) -/

/-- Every id in a prefill batch came from the accumulator or the waiting
list being drained. -/
theorem prefillLoop_mem (hashFn : List Int → Nat) (w : List Nat) :
    ∀ (st : SchedState) (acc b : List Nat) (st' : SchedState),
      prefillLoop hashFn st acc w = some (b, st') →
      ∀ sid ∈ b, sid ∈ acc ∨ sid ∈ w := by
  induction w with
  | nil =>
    intro st acc b st' hw sid hs
    simp only [prefillLoop, Option.some.injEq, Prod.mk.injEq] at hw
    left
    rw [hw.1]
    exact hs
  | cons sidh rest ih =>
    intro st acc b st' hw sid hs
    rw [prefillLoop] at hw
    by_cases h1 : acc.length < st.maxNumSeqs
    · rw [if_pos h1] at hw
      by_cases h2 : canSchedule st (st.store sidh) acc.length = true
      · rw [if_pos h2] at hw
        cases halloc : bmAllocate hashFn st.bm (st.store sidh) with
        | none =>
          simp only [halloc] at hw
          exact Option.noConfusion hw
        | some pr =>
          obtain ⟨bm2, s2⟩ := pr
          simp only [halloc] at hw
          rcases ih _ _ _ _ hw sid hs with hmem | hmem
          · rcases List.mem_append.mp hmem with hmem2 | hmem2
            · exact Or.inl hmem2
            · right
              simp only [List.mem_singleton] at hmem2
              rw [hmem2]
              exact List.mem_cons_self sidh rest
          · right
            exact List.mem_cons_of_mem sidh hmem
      · rw [if_neg h2] at hw
        simp only [Option.some.injEq, Prod.mk.injEq] at hw
        left
        rw [hw.1]
        exact hs
    · rw [if_neg h1] at hw
      simp only [Option.some.injEq, Prod.mk.injEq] at hw
      left
      rw [hw.1]
      exact hs

/-- The prefill loop returns the accumulator extended by the admitted ids,
and pushes exactly those ids onto the back of `running`. -/
theorem prefillLoop_batch_shape (hashFn : List Int → Nat) (w : List Nat) :
    ∀ (st : SchedState) (acc b : List Nat) (st' : SchedState),
      prefillLoop hashFn st acc w = some (b, st') →
      ∃ ad, b = acc ++ ad ∧ st'.running = st.running ++ ad := by
  induction w with
  | nil =>
    intro st acc b st' hw
    simp only [prefillLoop, Option.some.injEq, Prod.mk.injEq] at hw
    exact ⟨[], by rw [← hw.1]; simp, by rw [← hw.2]; simp⟩
  | cons sidh rest ih =>
    intro st acc b st' hw
    rw [prefillLoop] at hw
    by_cases h1 : acc.length < st.maxNumSeqs
    · rw [if_pos h1] at hw
      by_cases h2 : canSchedule st (st.store sidh) acc.length = true
      · rw [if_pos h2] at hw
        cases halloc : bmAllocate hashFn st.bm (st.store sidh) with
        | none =>
          simp only [halloc] at hw
          exact Option.noConfusion hw
        | some pr =>
          obtain ⟨bm2, s2⟩ := pr
          simp only [halloc] at hw
          obtain ⟨ad, had1, had2⟩ := ih _ _ _ _ hw
          refine ⟨sidh :: ad, ?_, ?_⟩
          · rw [had1, List.append_assoc]
            rfl
          · rw [had2]
            show st.running ++ [sidh] ++ ad = _
            rw [List.append_assoc]
            rfl
      · rw [if_neg h2] at hw
        simp only [Option.some.injEq, Prod.mk.injEq] at hw
        exact ⟨[], by rw [← hw.1]; simp, by rw [← hw.2]; simp⟩
    · rw [if_neg h1] at hw
      simp only [Option.some.injEq, Prod.mk.injEq] at hw
      exact ⟨[], by rw [← hw.1]; simp, by rw [← hw.2]; simp⟩

/-- Every id in a decode batch came from the accumulator or `running`. -/
theorem decodeWalk_mem (hashFn : List Int → Nat) :
    ∀ (st : SchedState) (scheduled : List Nat) (i : Nat),
      ∀ (b : List Nat) (st' : SchedState),
        decodeWalk hashFn st scheduled i = some (b, st') →
        ∀ sid ∈ b, sid ∈ scheduled ∨ sid ∈ st.running := by
  intro st scheduled i
  induction st, scheduled, i using decodeWalk.induct hashFn with
  | case1 st scheduled i h sid s hcan happ =>
    intro b st' hw sid2 hs
    rw [decodeWalk, dif_pos h] at hw
    rw [if_pos (show bmCanAppend st.bm (st.store (st.running.get ⟨i, h.1⟩)) = true
      from hcan)] at hw
    rw [show bmAppend hashFn st.bm (st.store (st.running.get ⟨i, h.1⟩)) = none
      from happ] at hw
    exact Option.noConfusion hw
  | case2 st scheduled i h sid s hcan bm2 s2 happ ih =>
    intro b st' hw sid2 hs
    rw [decodeWalk, dif_pos h] at hw
    rw [if_pos (show bmCanAppend st.bm (st.store (st.running.get ⟨i, h.1⟩)) = true
      from hcan)] at hw
    rw [show bmAppend hashFn st.bm (st.store (st.running.get ⟨i, h.1⟩)) =
      some (bm2, s2) from happ] at hw
    rcases ih b st' hw sid2 hs with hmem | hmem
    · rcases List.mem_append.mp hmem with hmem2 | hmem2
      · exact Or.inl hmem2
      · right
        simp only [List.mem_singleton] at hmem2
        rw [hmem2]
        exact List.get_mem _ _ _
    · exact Or.inr hmem
  | case3 st scheduled i h sid s hcan fr ih =>
    intro b st' hw sid2 hs
    rw [decodeWalk, dif_pos h] at hw
    rw [if_neg (show ¬bmCanAppend st.bm (st.store (st.running.get ⟨i, h.1⟩)) = true
      from hcan)] at hw
    rcases ih b st' hw sid2 hs with hmem | hmem
    · exact Or.inl hmem
    · right
      exact List.mem_of_mem_eraseIdx hmem
  | case4 st scheduled i h =>
    intro b st' hw sid2 hs
    rw [decodeWalk, dif_neg h] at hw
    simp only [Option.some.injEq, Prod.mk.injEq] at hw
    left
    rw [hw.1]
    exact hs

/-- C7: every batch returned by `Scheduler.Schedule` is homogeneous: a
prefill batch (`is_prefill = true`) consists only of ids that were in the
waiting queue when the call started, and a decode batch (`is_prefill =
false`) only of ids that were in the running queue. -/
theorem schedule_batch_homogeneous (hashFn : List Int → Nat)
    (st : SchedState) (batch : List Nat) (flag : Bool) (st' : SchedState)
    (hs : schedule hashFn st = some (batch, flag, st')) :
    (flag = true → ∀ sid ∈ batch, sid ∈ st.waiting) ∧
    (flag = false → ∀ sid ∈ batch, sid ∈ st.running) := by
  unfold schedule at hs
  cases hp : prefillLoop hashFn st [] st.waiting with
  | none =>
    simp only [hp] at hs
    exact Option.noConfusion hs
  | some pr =>
    obtain ⟨sched, st1⟩ := pr
    simp only [hp] at hs
    by_cases hlen : 0 < sched.length
    · rw [if_pos hlen] at hs
      simp only [Option.some.injEq, Prod.mk.injEq] at hs
      obtain ⟨hb, hf, _⟩ := hs
      constructor
      · intro _ sid hsid
        rw [← hb] at hsid
        rcases prefillLoop_mem hashFn st.waiting st [] sched st1 hp sid hsid with
          hmem | hmem
        · exact absurd hmem (List.not_mem_nil sid)
        · exact hmem
      · intro hfalse
        rw [← hf] at hfalse
        exact absurd hfalse (by simp)
    · rw [if_neg hlen] at hs
      cases hd : decodeWalk hashFn st1 [] 0 with
      | none =>
        simp only [hd] at hs
        exact Option.noConfusion hs
      | some pr2 =>
        obtain ⟨sched2, st2⟩ := pr2
        simp only [hd, Option.some.injEq, Prod.mk.injEq] at hs
        obtain ⟨hb, hf, _⟩ := hs
        have hsched : sched = [] := by
          cases sched with
          | nil => rfl
          | cons a l => exact absurd (by simp) hlen
        have hrun : st1.running = st.running := by
          obtain ⟨ad, had1, had2⟩ :=
            prefillLoop_batch_shape hashFn st.waiting st [] sched st1 hp
          rw [hsched] at had1
          have : ad = [] := by simpa using had1.symm
          rw [had2, this]
          simp
        constructor
        · intro htrue
          rw [← hf] at htrue
          exact absurd htrue (by simp)
        · intro _ sid hsid
          rw [← hb] at hsid
          rcases decodeWalk_mem hashFn st1 [] 0 sched2 st2 hd sid hsid with
            hmem | hmem
          · exact absurd hmem (List.not_mem_nil sid)
          · rw [← hrun]
            exact hmem

/-- Witness for C7: on a state with one waiting sequence, `Schedule`
returns a prefill batch drawn from the waiting queue. -/
theorem schedule_batch_homogeneous_witness :
    schedule hashModel stPrefillOnly = some ([9], true, stPrefillOnlyRes) ∧
    (∀ sid ∈ ([9] : List Nat), sid ∈ stPrefillOnly.waiting) := by
  have hcall : schedule hashModel stPrefillOnly =
      some ([9], true, stPrefillOnlyRes) := rfl
  exact ⟨hcall,
    (schedule_batch_homogeneous hashModel stPrefillOnly [9] true
      stPrefillOnlyRes hcall).1 rfl⟩

/-! ### C3: the token budget bounds each sequence, not the batch

`Scheduler.canSchedule` tests `seq.NumTokens - seq.NumCachedTokens >
maxNumBatchedTokens` for the candidate sequence alone; no running total
over the batch is kept, contrary to the claim. -/

/-- A sequence passing `canSchedule` has its own token need within the
budget. -/
theorem canSchedule_budget (st : SchedState) (s : Sequence) (k : Nat)
    (h : canSchedule st s k = true) :
    (s.tokenIDs.length : Int) - (s.numCachedTokens : Int) ≤
      st.maxNumBatchedTokens := by
  unfold canSchedule at h
  by_cases h1 : st.maxNumSeqs ≤ k
  · rw [if_pos h1] at h
    exact absurd h (by simp)
  · rw [if_neg h1] at h
    by_cases h2 : st.maxNumBatchedTokens <
        (s.tokenIDs.length : Int) - (s.numCachedTokens : Int)
    · rw [if_pos h2] at h
      exact absurd h (by simp)
    · exact le_of_not_lt h2

/-- Loop invariant for the prefill drain: relative to the store at entry
(`store0`), every admitted id's own `NumTokens - NumCachedTokens` is within
the budget `M`.  The store is only mutated at admitted ids, which a
duplicate-free waiting list never revisits. -/
theorem prefillLoop_budget (hashFn : List Int → Nat) (w : List Nat) :
    ∀ (st : SchedState) (acc b : List Nat) (st' : SchedState)
      (store0 : Nat → Sequence) (M : Int),
      prefillLoop hashFn st acc w = some (b, st') →
      w.Nodup →
      st.maxNumBatchedTokens = M →
      (∀ sid ∈ w, st.store sid = store0 sid) →
      (∀ sid ∈ acc, ((store0 sid).tokenIDs.length : Int) -
        ((store0 sid).numCachedTokens : Int) ≤ M) →
      ∀ sid ∈ b, ((store0 sid).tokenIDs.length : Int) -
        ((store0 sid).numCachedTokens : Int) ≤ M := by
  induction w with
  | nil =>
    intro st acc b st' store0 M hw _ _ _ hacc sid hs
    simp only [prefillLoop, Option.some.injEq, Prod.mk.injEq] at hw
    rw [hw.1] at hacc
    exact hacc sid hs
  | cons sidh rest ih =>
    intro st acc b st' store0 M hw hnd hM hstore hacc sid hs
    rw [prefillLoop] at hw
    by_cases h1 : acc.length < st.maxNumSeqs
    · rw [if_pos h1] at hw
      by_cases h2 : canSchedule st (st.store sidh) acc.length = true
      · rw [if_pos h2] at hw
        cases halloc : bmAllocate hashFn st.bm (st.store sidh) with
        | none =>
          simp only [halloc] at hw
          exact Option.noConfusion hw
        | some pr =>
          obtain ⟨bm2, s2⟩ := pr
          simp only [halloc] at hw
          have hbud : ((store0 sidh).tokenIDs.length : Int) -
              ((store0 sidh).numCachedTokens : Int) ≤ M := by
            have hb := canSchedule_budget st (st.store sidh) acc.length h2
            rw [hstore sidh (List.mem_cons_self sidh rest)] at hb
            rw [← hM]
            exact hb
          refine ih _ _ _ _ store0 M hw hnd.of_cons hM ?_ ?_ sid hs
          · intro sid2 hsid2
            have hne : sid2 ≠ sidh := by
              intro heq
              exact (List.nodup_cons.mp hnd).1 (heq ▸ hsid2)
            show setSeq st.store sidh _ sid2 = store0 sid2
            rw [setSeq]
            rw [if_neg hne]
            exact hstore sid2 (List.mem_cons_of_mem _ hsid2)
          · intro sid2 hsid2
            rcases List.mem_append.mp hsid2 with hmem | hmem
            · exact hacc sid2 hmem
            · simp only [List.mem_singleton] at hmem
              rw [hmem]
              exact hbud
      · rw [if_neg h2] at hw
        simp only [Option.some.injEq, Prod.mk.injEq] at hw
        rw [hw.1] at hacc
        exact hacc sid hs
    · rw [if_neg h1] at hw
      simp only [Option.some.injEq, Prod.mk.injEq] at hw
      rw [hw.1] at hacc
      exact hacc sid hs

/-- C3 amended: a waiting sequence is admitted to a prefill batch only if
its own `NumTokens - NumCachedTokens` is at most `maxNumBatchedTokens`
(besides the batch-size and `CanAllocate` tests); the budget bounds each
sequence individually, not the batch total. -/
theorem prefill_budget_bounds_each_sequence (hashFn : List Int → Nat)
    (st : SchedState) (batch : List Nat) (st' : SchedState)
    (hnd : st.waiting.Nodup)
    (hs : schedule hashFn st = some (batch, true, st')) :
    ∀ sid ∈ batch, ((st.store sid).tokenIDs.length : Int) -
      ((st.store sid).numCachedTokens : Int) ≤ st.maxNumBatchedTokens := by
  unfold schedule at hs
  cases hp : prefillLoop hashFn st [] st.waiting with
  | none =>
    simp only [hp] at hs
    exact Option.noConfusion hs
  | some pr =>
    obtain ⟨sched, st1⟩ := pr
    simp only [hp] at hs
    by_cases hlen : 0 < sched.length
    · rw [if_pos hlen] at hs
      simp only [Option.some.injEq, Prod.mk.injEq] at hs
      obtain ⟨hb, _, _⟩ := hs
      intro sid hsid
      refine prefillLoop_budget hashFn st.waiting st [] sched st1 st.store
        st.maxNumBatchedTokens hp hnd rfl (fun _ _ => rfl) ?_ sid ?_
      · intro x hx
        exact absurd hx (List.not_mem_nil x)
      · rw [hb]
        exact hsid
    · rw [if_neg hlen] at hs
      cases hd : decodeWalk hashFn st1 [] 0 with
      | none =>
        simp only [hd] at hs
        exact Option.noConfusion hs
      | some pr2 =>
        obtain ⟨sched2, st2⟩ := pr2
        simp only [hd, Option.some.injEq, Prod.mk.injEq] at hs
        exact absurd hs.2.1 (by simp)

/-- C3 counterexample: with `maxNumBatchedTokens = 15`, `Schedule` admits
both ten-token prompts into one prefill batch — each needs 10 ≤ 15 on its
own — so the batch total is 20, which is not below the budget.  The claim's
batch-sum bound fails; admission is per sequence. -/
theorem schedule_exceeds_batch_budget :
    (schedule hashModel stOverBudget).map (fun r => (r.1, r.2.1)) =
      some ([0, 1], true) ∧
    stOverBudget.maxNumBatchedTokens = 15 ∧
    ((stOverBudget.store 0).tokenIDs.length : Int) -
      ((stOverBudget.store 0).numCachedTokens : Int) +
      (((stOverBudget.store 1).tokenIDs.length : Int) -
        ((stOverBudget.store 1).numCachedTokens : Int)) = 20 ∧
    ¬((20 : Int) < 15) := by
  refine ⟨rfl, rfl, by decide, by decide⟩

/-- Witness for the amended C3 on the small state. -/
theorem prefill_budget_bounds_each_sequence_witness :
    stSmall.waiting.Nodup ∧
    ∀ sid ∈ ([0] : List Nat), ((stSmall.store sid).tokenIDs.length : Int) -
      ((stSmall.store sid).numCachedTokens : Int) ≤ stSmall.maxNumBatchedTokens := by
  have hnd : stSmall.waiting.Nodup := by
    show ([0] : List Nat).Nodup
    simp
  exact ⟨hnd, prefill_budget_bounds_each_sequence hashModel stSmall [0] stSmallRes
    hnd (rfl : schedule hashModel stSmall = some ([0], true, stSmallRes))⟩

/-! ### C8: `PostProcess` appends, finishes, frees, removes -/

theorem setSeq_same (store : Nat → Sequence) (sid : Nat) (s : Sequence) :
    setSeq store sid s sid = s := by
  rw [setSeq, if_pos rfl]

theorem setSeq_other (store : Nat → Sequence) (sid : Nat) (s : Sequence)
    (j : Nat) (h : j ≠ sid) : setSeq store sid s j = store j := by
  rw [setSeq, if_neg h]

/-- The finish test on the just-appended sequence, as a proposition: eos
was sampled and not ignored, or the completion length (now including the
appended token) has reached `maxTokens`. -/
theorem finishFlag_append_iff (eos : Int) (s : Sequence) (tok : Int) :
    (finishFlag eos (appendTokenSeq s tok) tok = true) ↔
      ((s.ignoreEOS = false ∧ tok = eos) ∨
        s.maxTokens ≤ ((s.tokenIDs.length : Int) + 1) -
          (s.numPromptTokens : Int)) := by
  unfold finishFlag appendTokenSeq
  simp only [Bool.or_eq_true, Bool.and_eq_true, Bool.not_eq_true',
    decide_eq_true_eq, List.length_append, List.length_singleton]
  constructor
  · rintro (⟨h1, h2⟩ | h3)
    · exact Or.inl ⟨h1, h2⟩
    · right
      have : ((s.tokenIDs.length + 1 : Nat) : Int) =
          (s.tokenIDs.length : Int) + 1 := by push_cast; ring
      rw [← this]
      exact h3
  · rintro (⟨h1, h2⟩ | h3)
    · exact Or.inl ⟨h1, h2⟩
    · right
      have : ((s.tokenIDs.length + 1 : Nat) : Int) =
          (s.tokenIDs.length : Int) + 1 := by push_cast; ring
      rw [this]
      exact h3

/-- `PostProcess` returns one finished flag per batch entry. -/
theorem ppLoop_length (ids : List Nat) :
    ∀ (toks : List Int) (st : SchedState) (flags : List Bool)
      (st' : SchedState),
      ppLoop st ids toks = some (flags, st') → flags.length = ids.length := by
  induction ids with
  | nil =>
    intro toks st flags st' h
    simp only [ppLoop, Option.some.injEq, Prod.mk.injEq] at h
    rw [← h.1]
    rfl
  | cons sid2 ids2 ih =>
    intro toks st flags st' h
    cases toks with
    | nil =>
      simp only [ppLoop] at h
      exact Option.noConfusion h
    | cons tok toks2 =>
      simp only [ppLoop] at h
      split at h
      · split at h
        · exact Option.noConfusion h
        · rename_i flags2 st2 hrec
          simp only [Option.some.injEq, Prod.mk.injEq] at h
          rw [← h.1]
          simp only [List.length_cons]
          rw [ih toks2 _ flags2 st2 hrec]
      · split at h
        · exact Option.noConfusion h
        · rename_i flags2 st2 hrec
          simp only [Option.some.injEq, Prod.mk.injEq] at h
          rw [← h.1]
          simp only [List.length_cons]
          rw [ih toks2 _ flags2 st2 hrec]

/-- Frame property of the `PostProcess` loop: a sequence id not in the
batch keeps its store entry, and its membership in `running` is
untouched. -/
theorem ppLoop_frame (ids : List Nat) :
    ∀ (toks : List Int) (st : SchedState) (flags : List Bool)
      (st' : SchedState) (sid : Nat),
      ppLoop st ids toks = some (flags, st') → sid ∉ ids →
      st'.store sid = st.store sid ∧
        (sid ∈ st'.running ↔ sid ∈ st.running) := by
  induction ids with
  | nil =>
    intro toks st flags st' sid h _
    simp only [ppLoop, Option.some.injEq, Prod.mk.injEq] at h
    rw [← h.2]
    exact ⟨rfl, Iff.rfl⟩
  | cons sid2 ids2 ih =>
    intro toks st flags st' sid h hnin
    have hne : sid ≠ sid2 := fun heq => hnin (heq ▸ List.mem_cons_self sid2 ids2)
    have hnin2 : sid ∉ ids2 := fun hm => hnin (List.mem_cons_of_mem _ hm)
    cases toks with
    | nil =>
      simp only [ppLoop] at h
      exact Option.noConfusion h
    | cons tok toks2 =>
      simp only [ppLoop] at h
      split at h
      · split at h
        · exact Option.noConfusion h
        · rename_i flags2 st2 hrec
          simp only [Option.some.injEq, Prod.mk.injEq] at h
          rw [← h.2]
          obtain ⟨hs1, hr1⟩ := ih toks2 _ flags2 st2 sid hrec hnin2
          constructor
          · rw [hs1]
            exact setSeq_other _ _ _ _ hne
          · rw [hr1]
            exact List.mem_erase_of_ne hne
      · split at h
        · exact Option.noConfusion h
        · rename_i flags2 st2 hrec
          simp only [Option.some.injEq, Prod.mk.injEq] at h
          rw [← h.2]
          obtain ⟨hs1, hr1⟩ := ih toks2 _ flags2 st2 sid hrec hnin2
          constructor
          · rw [hs1]
            exact setSeq_other _ _ _ _ hne
          · exact hr1

theorem bmFree_seq (st : BMState) (s : Sequence) :
    (bmFree st s).2 = {s with blockTable := [], numCachedTokens := 0} :=
  rfl

theorem ppFinish_store (st : SchedState) (sid : Nat) (s1 : Sequence) (j : Nat) :
    (ppFinish st sid s1).store j =
      setSeq st.store sid {(bmFree st.bm s1).2 with status := SeqStatus.finished} j :=
  rfl

theorem ppFinish_running (st : SchedState) (sid : Nat) (s1 : Sequence) :
    (ppFinish st sid s1).running = st.running.erase sid :=
  rfl

theorem ppKeep_store (st : SchedState) (sid : Nat) (s1 : Sequence) (j : Nat) :
    (ppKeep st sid s1).store j = setSeq st.store sid s1 j :=
  rfl

theorem ppKeep_running (st : SchedState) (sid : Nat) (s1 : Sequence) :
    (ppKeep st sid s1).running = st.running :=
  rfl

/-- Per-index specification of the `PostProcess` loop (see the C8 theorem
below for the statement on `postProcess`). -/
theorem ppLoop_spec (ids : List Nat) :
    ∀ (toks : List Int) (st : SchedState) (flags : List Bool)
      (st' : SchedState) (i : Nat),
      ppLoop st ids toks = some (flags, st') →
      ids.Nodup → st.running.Nodup → i < ids.length →
      (st'.store (ids.getD i 0)).tokenIDs =
        (st.store (ids.getD i 0)).tokenIDs ++ [toks.getD i 0] ∧
      ((flags.getD i false = true) ↔
        (((st.store (ids.getD i 0)).ignoreEOS = false ∧
            toks.getD i 0 = st.eosTokenID) ∨
          (st.store (ids.getD i 0)).maxTokens ≤
            (((st.store (ids.getD i 0)).tokenIDs.length : Int) + 1) -
              ((st.store (ids.getD i 0)).numPromptTokens : Int))) ∧
      (flags.getD i false = true →
        (st'.store (ids.getD i 0)).status = SeqStatus.finished ∧
        (st'.store (ids.getD i 0)).blockTable = [] ∧
        ids.getD i 0 ∉ st'.running) ∧
      (flags.getD i false = false →
        (st'.store (ids.getD i 0)).status = (st.store (ids.getD i 0)).status ∧
        (ids.getD i 0 ∈ st'.running ↔ ids.getD i 0 ∈ st.running)) := by
  induction ids with
  | nil =>
    intro toks st flags st' i _ _ _ hi
    exact absurd hi (by simp)
  | cons sid2 ids2 ih =>
    intro toks st flags st' i hpp hnd hrun hi
    have hhead : sid2 ∉ ids2 := (List.nodup_cons.mp hnd).1
    cases toks with
    | nil =>
      simp only [ppLoop] at hpp
      exact Option.noConfusion hpp
    | cons tok toks2 =>
      simp only [ppLoop] at hpp
      split at hpp
      · rename_i hfin
        split at hpp
        · exact Option.noConfusion hpp
        · rename_i flags2 st2 hrec
          simp only [Option.some.injEq, Prod.mk.injEq] at hpp
          obtain ⟨hflags, hst⟩ := hpp
          subst hflags
          subst hst
          cases i with
          | zero =>
            obtain ⟨hfr1, hfr2⟩ := ppLoop_frame ids2 toks2
              (ppFinish st sid2 (appendTokenSeq (st.store sid2) tok)) flags2
              st2 sid2 hrec hhead
            simp only [List.getD_cons_zero]
            refine ⟨?_, ?_, ?_, ?_⟩
            · simp only [hfr1, ppFinish_store, setSeq_same, bmFree_seq, appendTokenSeq]
            · constructor
              · intro _
                exact (finishFlag_append_iff _ _ _).mp hfin
              · intro _
                trivial
            · intro _
              refine ⟨?_, ?_, ?_⟩
              · simp only [hfr1, ppFinish_store, setSeq_same, bmFree_seq]
              · simp only [hfr1, ppFinish_store, setSeq_same, bmFree_seq]
              · intro hmem
                have hm1 := hfr2.mp hmem
                rw [ppFinish_running] at hm1
                exact ((List.Nodup.mem_erase_iff hrun).mp hm1).1 rfl
            · intro hfalse
              exact absurd hfalse (by simp)
          | succ j =>
            have hj : j < ids2.length := Nat.lt_of_succ_lt_succ hi
            obtain ⟨c1, c2, c3, c4⟩ := ih toks2
              (ppFinish st sid2 (appendTokenSeq (st.store sid2) tok)) flags2
              st2 j hrec hnd.of_cons
              (by rw [ppFinish_running]; exact List.Nodup.erase sid2 hrun) hj
            have hmemj : ids2.getD j 0 ∈ ids2 := by
              rw [List.getD_eq_get ids2 0 hj]
              exact List.get_mem _ _ _
            have hnej : ids2.getD j 0 ≠ sid2 := fun heq => hhead (heq ▸ hmemj)
            rw [ppFinish_store, setSeq_other _ _ _ _ hnej] at c1 c2 c4
            simp only [List.getD_cons_succ]
            refine ⟨c1, c2, c3, ?_⟩
            intro hfalse
            obtain ⟨d1, d2⟩ := c4 hfalse
            refine ⟨d1, ?_⟩
            rw [d2, ppFinish_running]
            exact List.mem_erase_of_ne hnej
      · rename_i hfin
        split at hpp
        · exact Option.noConfusion hpp
        · rename_i flags2 st2 hrec
          simp only [Option.some.injEq, Prod.mk.injEq] at hpp
          obtain ⟨hflags, hst⟩ := hpp
          subst hflags
          subst hst
          cases i with
          | zero =>
            obtain ⟨hfr1, hfr2⟩ := ppLoop_frame ids2 toks2
              (ppKeep st sid2 (appendTokenSeq (st.store sid2) tok)) flags2
              st2 sid2 hrec hhead
            simp only [List.getD_cons_zero]
            refine ⟨?_, ?_, ?_, ?_⟩
            · simp only [hfr1, ppKeep_store, setSeq_same, appendTokenSeq]
            · constructor
              · intro hcontr
                exact absurd hcontr (by simp)
              · intro hcond
                exact absurd ((finishFlag_append_iff _ _ _).mpr hcond) hfin
            · intro hcontr
              exact absurd hcontr (by simp)
            · intro _
              constructor
              · simp only [hfr1, ppKeep_store, setSeq_same, appendTokenSeq]
              · rw [hfr2, ppKeep_running]
          | succ j =>
            have hj : j < ids2.length := Nat.lt_of_succ_lt_succ hi
            obtain ⟨c1, c2, c3, c4⟩ := ih toks2
              (ppKeep st sid2 (appendTokenSeq (st.store sid2) tok)) flags2
              st2 j hrec hnd.of_cons
              (by rw [ppKeep_running]; exact hrun) hj
            have hmemj : ids2.getD j 0 ∈ ids2 := by
              rw [List.getD_eq_get ids2 0 hj]
              exact List.get_mem _ _ _
            have hnej : ids2.getD j 0 ≠ sid2 := fun heq => hhead (heq ▸ hmemj)
            rw [ppKeep_store, setSeq_other _ _ _ _ hnej] at c1 c2 c4
            simp only [List.getD_cons_succ]
            refine ⟨c1, c2, c3, ?_⟩
            intro hfalse
            obtain ⟨d1, d2⟩ := c4 hfalse
            refine ⟨d1, ?_⟩
            rw [d2, ppKeep_running]

/-- C8: for every batch and aligned sampled-token vector, `PostProcess`
appends each token to its sequence, returns one flag per entry, and a
sequence is finished — status Finished, block table freed, id removed
from the running queue — exactly when (`ignore_eos` is false and the
token equals the eos id) or the completion length (including the appended
token) has reached `max_tokens`; an unfinished sequence keeps its status
and its place in the running queue. -/
theorem postProcess_appends_and_finishes (st : SchedState) (ids : List Nat)
    (toks : List Int) (flags : List Bool) (st' : SchedState)
    (hpp : postProcess st ids toks = some (flags, st'))
    (hnd : ids.Nodup) (hrun : st.running.Nodup)
    (i : Nat) (hi : i < ids.length) :
    flags.length = ids.length ∧
    (st'.store (ids.getD i 0)).tokenIDs =
      (st.store (ids.getD i 0)).tokenIDs ++ [toks.getD i 0] ∧
    ((flags.getD i false = true) ↔
      (((st.store (ids.getD i 0)).ignoreEOS = false ∧
          toks.getD i 0 = st.eosTokenID) ∨
        (st.store (ids.getD i 0)).maxTokens ≤
          (((st.store (ids.getD i 0)).tokenIDs.length : Int) + 1) -
            ((st.store (ids.getD i 0)).numPromptTokens : Int))) ∧
    (flags.getD i false = true →
      (st'.store (ids.getD i 0)).status = SeqStatus.finished ∧
      (st'.store (ids.getD i 0)).blockTable = [] ∧
      ids.getD i 0 ∉ st'.running) ∧
    (flags.getD i false = false →
      (st'.store (ids.getD i 0)).status = (st.store (ids.getD i 0)).status ∧
      (ids.getD i 0 ∈ st'.running ↔ ids.getD i 0 ∈ st.running)) := by
  refine ⟨ppLoop_length ids toks st flags st' hpp, ?_, ?_, ?_, ?_⟩ <;>
    have h := ppLoop_spec ids toks st flags st' i hpp hnd hrun hi
  · exact h.1
  · exact h.2.1
  · exact h.2.2.1
  · exact h.2.2.2

/-- Witness for C8: sampling the eos token finishes the sequence in the
same step — appended token, Finished status, removal from running. -/
theorem postProcess_appends_and_finishes_witness :
    postProcess stPP [5] [9] = some ([true], stPPRes) ∧
    (stPPRes.store 5).tokenIDs = [1, 2, 9] ∧
    (stPPRes.store 5).status = SeqStatus.finished ∧
    5 ∉ stPPRes.running := by
  have hpp : postProcess stPP [5] [9] = some ([true], stPPRes) := rfl
  have h := postProcess_appends_and_finishes stPP [5] [9] [true] stPPRes hpp
    (by simp) (by show ([5] : List Nat).Nodup; simp) 0 (by simp)
  obtain ⟨-, h1, -, h3, -⟩ := h
  obtain ⟨hs, _, hr⟩ := h3 rfl
  exact ⟨hpp, h1, hs, hr⟩

/-- C4 counterexample: with two prompts whose sequences 0 and 1 finished
with distinct outputs, and the map iteration yielding sequence 0's entry
first in both loops (an admissible Go map order), `Generate` returns
sequence 0's output for both prompts: `result[1]` is not prompt 1's own
completion. -/
theorem generate_misaligns_outputs :
    collectOutputs 2 (fun _ => [(0, outSeqA), (1, outSeqB)]) =
      [some outSeqA, some outSeqA] ∧
    outSeqA ≠ outSeqB := by
  refine ⟨rfl, ?_⟩
  intro h
  have h2 := congrArg GenerationOutput.tokenIDs h
  simp only [outSeqA, outSeqB] at h2
  exact absurd h2 (by simp)
